import Mathlib

/-!
Shallow embedding of `scripts/extract_names.py`: a batch indexer that
loads per-user JSON records, buckets (name, uid) pairs by the uppercased
first character of the name into 36 buckets (A-Z, 0-9), and aggregates,
normalizes, counts and ranks tag strings into a top-N list.

Python values are modelled as follows: JSON documents by the inductive
`JValue`; Python dicts by association lists looked up by first match
(JSON objects produced by `json.load` have unique keys, duplicates having
been collapsed); dict assignment `d[k] = v` by `dictSet` (replace in
place or append); `collections.Counter` by an association list
`List (String × Nat)` updated by `counterAdd`.  A record store directory
listing is a `List (String × Option JValue)`: the filename together with
the parsed document, `none` standing for a file whose open/`json.load`
raised (the per-file `try` catches exactly that).

Python string builtins are modelled by structural functions over the
character list `String.data`: `pyLower`/`pyUpperChar` (ASCII case mapping,
standing in for Unicode case mapping), `pyStrip` (`str.strip`),
`pyEndsWith`, `pyIsPre` (`str.startswith`), `pyDrop` (`s[n:]`),
`pyCut` (`s[:-n]`), `pyIsDigitStr` (`str.isdigit`, ASCII digits),
`splitComma` (`s.split(',')`), and `lexLeChars` (code-point lexicographic
`<=`, Python's string comparison).  `sorted` with key
`(-count, tag)` is modelled by `List.insertionSort` under the
corresponding total order `tagRel`: the key order is antisymmetric on
(tag, count) pairs, so every sorted permutation is equal and the choice
of stable sorting algorithm is immaterial.
-/

/-- JSON values as produced by `json.load`. -/
inductive JValue where
  | str (s : String)
  | num (n : Int)
  | bool (b : Bool)
  | null
  | arr (elems : List JValue)
  | obj (fields : List (String × JValue))

/-- Whether a `JValue` is a JSON string (Python `isinstance(v, str)`). -/
def JValue.isStr : JValue → Bool
  | .str _ => true
  | _ => false

/-- Whether a `JValue` is a JSON object (a Python `dict` after `json.load`). -/
def JValue.isObj : JValue → Bool
  | .obj _ => true
  | _ => false

/-- Python `str.lower`, character by character (ASCII model). -/
def pyLower (s : String) : String := ⟨s.data.map Char.toLower⟩

/-- Python `str.upper` on a single character `name[0].upper()` (ASCII model). -/
def pyUpperChar (c : Char) : Char := c.toUpper

/-- Python `str.strip`: remove leading and trailing whitespace. -/
def pyStrip (s : String) : String :=
  ⟨((s.data.dropWhile Char.isWhitespace).reverse.dropWhile Char.isWhitespace).reverse⟩

/-- Python `s.endswith(t)`. -/
def pyEndsWith (s t : String) : Bool := t.data.isSuffixOf s.data

/-- Python `s.startswith(t)`. -/
def pyIsPre (t s : String) : Bool := t.data.isPrefixOf s.data

/-- Python slice `s[n:]`. -/
def pyDrop (s : String) (n : Nat) : String := ⟨s.data.drop n⟩

/-- Python slice `s[:-n]` (for `n ≤ len(s)`): all but the last `n` characters. -/
def pyCut (s : String) (n : Nat) : String := ⟨s.data.take (s.data.length - n)⟩

/-- Python `str.isdigit`: non-empty and all digits (ASCII model). -/
def pyIsDigitStr (s : String) : Bool := !s.data.isEmpty && s.data.all Char.isDigit

/-- Helper for `splitComma`: accumulates the current piece (reversed). -/
def splitCommaAux : List Char → List Char → List String
  | [], acc => [⟨acc.reverse⟩]
  | c :: rest, acc =>
    if c = ',' then ⟨acc.reverse⟩ :: splitCommaAux rest []
    else splitCommaAux rest (c :: acc)

/-- Python `s.split(',')`. -/
def splitComma (s : String) : List String := splitCommaAux s.data []

/-- Code-point lexicographic `<=` on character lists: Python's `str` order. -/
def lexLeChars : List Char → List Char → Bool
  | [], _ => true
  | _ :: _, [] => false
  | a :: as, b :: bs => if a = b then lexLeChars as bs else decide (a < b)

/-- Python dict lookup `d.get(k)` on an association list
(first match; JSON-object keys are unique). -/
def pyGet (fields : List (String × JValue)) (k : String) : Option JValue :=
  (fields.find? (fun kv => kv.1 == k)).map Prod.snd

/-- Outcome of the per-record body of `load_users` (lines 32-40): either a
(name, uid) pair is appended, or the record is silently skipped because the
trimmed name is empty/missing, or an exception was raised and caught by the
`except` clause (e.g. `.strip()` on a non-string, or `.get` on a non-dict). -/
inductive LoadOutcome where
  | pair (name : String)
  | skipped
  | errored
deriving DecidableEq, Repr

/-- The body `name = data.get("name", "").strip(); if name: append` of
`load_users`, applied to one parsed document.  A document that is not an
object makes `data.get` raise `AttributeError`; a `name` value that is not a
string makes `.strip()` raise; both are caught and yield `errored`. -/
def processRecord : JValue → LoadOutcome
  | .obj fields =>
    match (pyGet fields "name").getD (.str "") with
    | .str s =>
      let name := pyStrip s
      if name.data.isEmpty then .skipped else .pair name
    | _ => .errored
  | _ => .errored

/-- The filename filter `fname.lower().endswith(".json")` used by both
`load_users` (line 28) and `compute_popular_tags` (line 97). -/
def isJsonFile (fname : String) : Bool :=
  pyEndsWith (pyLower fname) ".json"

/-- The uid derivation `uid = fname[:-5]` of `load_users` (line 30). -/
def uidOf (fname : String) : String :=
  pyCut fname 5

/-- One iteration of the `load_users` loop, returning the (name, uid) pair it
appends, if any: non-`.json` filenames are skipped by the `continue`, a file
whose read/parse raised is skipped by the `except`, and the parsed document
is handled by `processRecord`. -/
def processFile (file : String × Option JValue) : Option (String × String) :=
  if isJsonFile file.1 then
    match file.2 with
    | none => none
    | some data =>
      match processRecord data with
      | .pair name => some (name, uidOf file.1)
      | _ => none
  else none

/-- The function `load_users` (lines 17-43): the list of (name, uid) pairs
collected over the directory listing. -/
def load_users (files : List (String × Option JValue)) : List (String × String) :=
  files.filterMap processFile

/-- Python `string.ascii_uppercase` as a character list. -/
def ascii_uppercase : List Char := "ABCDEFGHIJKLMNOPQRSTUVWXYZ".data

/-- The digit keys `DIGITS = [str(d) for d in range(10)]` (single characters). -/
def DIGITS : List Char := "0123456789".data

/-- The 36 bucket keys, letters first then digits, in the order the Python
dict `buckets` acquires them. -/
def bucketKeys : List Char := ascii_uppercase ++ DIGITS

/-- A bucket dict: name → uid, as an association list in insertion order. -/
abbrev Bucket := List (String × String)

/-- The buckets dict: bucket key → bucket, as an association list. -/
abbrev Buckets := List (Char × Bucket)

/-- Python dict assignment `d[name] = uid` on a bucket: overwrite in place if
the key is present, else append at the end. -/
def dictSet (d : Bucket) (name uid : String) : Bucket :=
  if d.any (fun p => p.1 == name) then
    d.map (fun p => if p.1 == name then (p.1, uid) else p)
  else d ++ [(name, uid)]

/-- Bucket dict lookup `d.get(name)`. -/
def dictGet (d : Bucket) (name : String) : Option String :=
  (d.find? (fun p => p.1 == name)).map Prod.snd

/-- The initial buckets `{L: {} for L in string.ascii_uppercase}` extended
with the digit buckets (lines 52-55). -/
def emptyBuckets : Buckets :=
  ascii_uppercase.map (fun L => (L, [])) ++ DIGITS.map (fun d => (d, []))

/-- One iteration of the `bucket_by_letter` loop (lines 57-63): skip empty
names, compute `first = name[0].upper()`, and if `first in buckets` assign
`buckets[first][name] = uid`, else drop the pair. -/
def bucketsInsert (bs : Buckets) (name uid : String) : Buckets :=
  match name.data with
  | [] => bs
  | c :: _ =>
    let first := pyUpperChar c
    if bs.any (fun p => p.1 == first) then
      bs.map (fun p => if p.1 == first then (p.1, dictSet p.2 name uid) else p)
    else bs

/-- The function `bucket_by_letter` (lines 45-64). -/
def bucket_by_letter (pairs : List (String × String)) : Buckets :=
  pairs.foldl (fun bs p => bucketsInsert bs p.1 p.2) emptyBuckets

/-- Whether `name` occurs as a key of the bucket stored under `k`. -/
def memBucket (bs : Buckets) (k : Char) (name : String) : Bool :=
  bs.any (fun p => p.1 == k && p.2.any (fun q => q.1 == name))

/-- The uid stored for `name` in the bucket under `k`, if any:
`buckets[k].get(name)`. -/
def bucketLookup (bs : Buckets) (k : Char) (name : String) : Option String :=
  (bs.find? (fun p => p.1 == k)).bind (fun p => dictGet p.2 name)

/-- The bucket key a name is routed to: the uppercased first character, or
`none` for the empty name (which the loop skips). -/
def keyOf (name : String) : Option Char :=
  name.data.head?.map pyUpperChar

/-- Specification helper: the contents a single bucket `k` accumulates over
the pair list, obtained by replaying only the assignments routed to `k`.
`bucket_by_letter` is proved pointwise equal to this (`bucket_by_letter_eq`). -/
def bucketContent (k : Char) (pairs : List (String × String)) : Bucket :=
  pairs.foldl (fun d p => if keyOf p.1 = some k then dictSet d p.1 p.2 else d) []

/-- The tag candidate strings one parsed object yields (lines 107-121):
first the items from the aggregated `tags` field (a list contributes its
string elements unchanged; a string contributes its comma-separated pieces,
each stripped; any other shape, or a missing field defaulting to `[]`,
contributes nothing), then the values of the fields whose lower-cased key
starts with `tag` and continues with one or more digits, string values only,
in field order. -/
def tagCandidates (fields : List (String × JValue)) : List String :=
  (match (pyGet fields "tags").getD (.arr []) with
   | .arr ts => ts.filterMap (fun t => match t with | .str s => some s | _ => none)
   | .str s => (splitComma s).map pyStrip
   | _ => []) ++
  fields.filterMap (fun kv =>
    match kv.2 with
    | .str v =>
      let kl := pyLower kv.1
      if pyIsPre "tag" kl && pyIsDigitStr (pyDrop kl 3) then some v else none
    | _ => none)

/-- The normalization loop (lines 123-126): each candidate is stripped and
lower-cased, and candidates that become empty are discarded; the survivors
are the strings whose counts are incremented. -/
def normalizedCandidates (fields : List (String × JValue)) : List String :=
  (tagCandidates fields).filterMap (fun t =>
    let n := pyLower (pyStrip t)
    if n.data.isEmpty then none else some n)

/-- Modelled from the spec sentences behind C3 (tag candidate extraction),
for comparison with the code's `tagCandidates`: (1) if the aggregated `tags`
field is a list, each element that is a string; if it is a single string,
the comma-separated pieces, each trimmed; plus (2) the string value of every
field whose key case-insensitively matches `tag` followed by one or more
digits. -/
def specTagCandidates (fields : List (String × JValue)) : List String :=
  (match pyGet fields "tags" with
   | some (.arr ts) => ts.filterMap (fun t => match t with | .str s => some s | _ => none)
   | some (.str s) => (splitComma s).map pyStrip
   | _ => []) ++
  fields.filterMap (fun kv =>
    match kv.2 with
    | .str v =>
      if pyIsPre "tag" (pyLower kv.1) &&
         !(pyDrop (pyLower kv.1) 3).data.isEmpty &&
         (pyDrop (pyLower kv.1) 3).data.all Char.isDigit then some v else none
    | _ => none)

/-- A `collections.Counter` over normalized tags. -/
abbrev TagCounter := List (String × Nat)

/-- One `counter[t] += 1` step: increment in place if present, else append
with count 1 (`Counter` missing keys default to 0). -/
def counterAdd (c : TagCounter) (t : String) : TagCounter :=
  if c.any (fun p => p.1 == t) then
    c.map (fun p => if p.1 == t then (p.1, p.2 + 1) else p)
  else c ++ [(t, 1)]

/-- The count stored for tag `t` (0 when absent). -/
def countOf (c : TagCounter) (t : String) : Nat :=
  ((c.find? (fun p => p.1 == t)).map Prod.snd).getD 0

/-- One iteration of the per-file loop of `compute_popular_tags`
(lines 98-126): a file whose read/parse raised is skipped by the `except`;
a parsed document that is not an object makes `data.get("tags", [])` raise
`AttributeError` OUTSIDE the `try`, which propagates; an object contributes
one count per normalized candidate. -/
def tallyFile (c : TagCounter) (doc : Option JValue) : Except Unit TagCounter :=
  match doc with
  | none => .ok c
  | some (.obj fields) => .ok ((normalizedCandidates fields).foldl counterAdd c)
  | some _ => .error ()

/-- The per-file loop of `compute_popular_tags`, folded over the
already-filtered file list, propagating an uncaught exception. -/
def tallyAll (c : TagCounter) : List (String × Option JValue) → Except Unit TagCounter
  | [] => .ok c
  | f :: fs =>
    match tallyFile c f.2 with
    | .error e => .error e
    | .ok c2 => tallyAll c2 fs

/-- The counting phase of `compute_popular_tags` (lines 92-126): filter the
listing to `.json` files (line 97) and tally each. -/
def computeCountsE (files : List (String × Option JValue)) : Except Unit TagCounter :=
  tallyAll [] (files.filter (fun f => isJsonFile f.1))

/-- The `limit` argument as a Python value: an int, or some other object
(modelled as a string) that `int()` must first convert. -/
inductive Limit where
  | int (n : Int)
  | str (s : String)

/-- Decimal value of a digit string. -/
def digitsToNat (l : List Char) : Nat :=
  l.foldl (fun n c => 10 * n + (c.toNat - '0'.toNat)) 0

/-- Python built-in `int()` as used on `limit` (line 133): an int passes
through; a string parses as optional sign followed by decimal digits
(surrounding whitespace allowed); anything else raises `ValueError`,
modelled as `none`. -/
def pyInt : Limit → Option Int
  | .int n => some n
  | .str s =>
    let t := (pyStrip s).data
    match t with
    | '-' :: rest => if pyIsDigitStr ⟨rest⟩ then some (-(digitsToNat rest : Int)) else none
    | '+' :: rest => if pyIsDigitStr ⟨rest⟩ then some ((digitsToNat rest : Int)) else none
    | _ => if pyIsDigitStr ⟨t⟩ then some ((digitsToNat t : Int)) else none

/-- The sort key order of line 132, `key=lambda kv: (-kv[1], kv[0])`:
count descending, then tag ascending in code-point lexicographic order. -/
def tagRel (a b : String × Nat) : Prop :=
  b.2 < a.2 ∨ (a.2 = b.2 ∧ lexLeChars a.1.data b.1.data = true)

instance : DecidableRel tagRel := fun a b => by
  unfold tagRel; infer_instance

/-- The ranking phase of `compute_popular_tags` (lines 128-134): empty
counter short-circuits to `[]` before `limit` is even converted; otherwise
sort by `tagRel`, truncate to `max(0, int(limit))` entries (`int()` may
raise), and keep the tag strings. -/
def rankTags (counter : TagCounter) (limit : Limit) : Except Unit (List String) :=
  if counter.isEmpty then .ok []
  else
    match pyInt limit with
    | none => .error ()
    | some n => .ok (((counter.insertionSort tagRel).map Prod.fst).take (max 0 n).toNat)

/-- The function `compute_popular_tags` (lines 79-134): tally then rank. -/
def compute_popular_tags (files : List (String × Option JValue)) (limit : Limit) :
    Except Unit (List String) :=
  match computeCountsE files with
  | .error e => .error e
  | .ok counter => rankTags counter limit

example : load_users [("a.json", some (.obj [("name", .str "  Alice ")])),
                      ("b.txt", some (.obj [("name", .str "Bob")])),
                      ("c.json", some (.obj [("name", .num 3)])),
                      ("d.json", none),
                      ("E.JSON", some (.obj [("name", .str "Eve")]))]
    = [("Alice", "a"), ("Eve", "E")] := by decide

example : memBucket (bucket_by_letter [("Alice", "1"), ("7bot", "9")]) 'A' "Alice" = true := by decide
example : memBucket (bucket_by_letter [("Alice", "1"), ("7bot", "9")]) '7' "7bot" = true := by decide
example : bucketLookup (bucket_by_letter [("Bob", "1"), ("Bob", "2")]) 'B' "Bob" = some "2" := by decide
example : (bucket_by_letter []).map Prod.fst = bucketKeys := by decide

example : compute_popular_tags
    [("a.json", some (.obj [("tags", .str "Foo, bar"), ("TAG2", .str "foo"), ("tagx", .str "no"), ("n", .num 1)])),
     ("b.json", some (.obj [("tags", .arr [.str " Bar ", .num 7])])),
     ("c.txt", some (.num 0)),
     ("d.json", none)]
    (.int 10) = .ok ["bar", "foo"] := by rfl

/-! ### Generic list helper lemmas -/

theorem getLast?_cons_or {α : Type} (a : α) (l : List α) :
    (a :: l).getLast? = l.getLast?.or (some a) := by
  cases l with
  | nil => rfl
  | cons b t =>
    rw [List.getLast?_cons_cons]
    cases h : (b :: t).getLast? with
    | none => simp [List.getLast?_eq_none_iff] at h
    | some q => rfl

theorem option_map_or {α β : Type} (f : α → β) (x y : Option α) :
    (x.or y).map f = (x.map f).or (y.map f) := by
  cases x <;> rfl

theorem find?_beq_self {κ : Type} [BEq κ] [LawfulBEq κ] (l : List κ) (k : κ) (hk : k ∈ l) :
    l.find? (fun x => x == k) = some k := by
  induction l with
  | nil => cases hk
  | cons a t ih =>
    by_cases ha : a = k
    · subst ha
      simp [List.find?]
    · have hb : (a == k) = false := by simp [ha]
      rw [List.find?]
      rw [hb]
      exact ih (by cases hk with
        | head => exact absurd rfl ha
        | tail _ h => exact h)

/-! ### Association-list lemmas shared by the bucket and counter proofs -/

theorem find?_fst_map {α : Type} (d : List (String × α)) (g : String × α → String × α)
    (hg : ∀ p, (g p).1 = p.1) (t : String) :
    (d.map g).find? (fun p => p.1 == t) = (d.find? (fun p => p.1 == t)).map g := by
  rw [List.find?_map]
  have hfun : ((fun p : String × α => p.1 == t) ∘ g) = (fun p : String × α => p.1 == t) := by
    funext p
    simp [Function.comp, hg]
  rw [hfun]

theorem map_fst_map {α : Type} (d : List (String × α)) (g : String × α → String × α)
    (hg : ∀ p, (g p).1 = p.1) :
    (d.map g).map Prod.fst = d.map Prod.fst := by
  rw [List.map_map]
  exact List.map_congr_left (fun p _ => hg p)

theorem find?_eq_none_of_any_false {α : Type} (d : List (String × α)) (t : String)
    (h : d.any (fun p => p.1 == t) = false) :
    d.find? (fun p => p.1 == t) = none := by
  rw [List.find?_eq_none]
  intro p hp
  simp only [List.any_eq_false] at h
  exact fun hpt => h p hp hpt

theorem find?_isSome_of_any {α : Type} (d : List (String × α)) (t : String)
    (h : d.any (fun p => p.1 == t) = true) :
    (d.find? (fun p => p.1 == t)).isSome := by
  simp only [List.any_eq_true] at h
  obtain ⟨p, hp, hpt⟩ := h
  exact List.find?_isSome.mpr ⟨p, hp, hpt⟩

/-! ### Bucket dict lemmas -/

theorem any_eq_false_of_not (d : Bucket) (t : String)
    (h : ¬ d.any (fun p => p.1 == t) = true) : d.any (fun p => p.1 == t) = false := by
  revert h
  cases d.any (fun p => p.1 == t) <;> simp

theorem dictGet_dictSet_self (d : Bucket) (name uid : String) :
    dictGet (dictSet d name uid) name = some uid := by
  unfold dictSet dictGet
  by_cases h : d.any (fun p => p.1 == name) = true
  · rw [if_pos h, find?_fst_map _ _ (fun p => by by_cases hp : p.1 = name <;> simp [hp])]
    have hs := find?_isSome_of_any d name h
    obtain ⟨q, hq⟩ := Option.isSome_iff_exists.mp hs
    have hq1 : q.1 = name := by simpa using List.find?_some hq
    simp [hq, hq1]
  · rw [if_neg h, List.find?_append, find?_eq_none_of_any_false d name (any_eq_false_of_not d name h)]
    simp

theorem dictGet_dictSet_ne (d : Bucket) (name uid t : String) (hne : name ≠ t) :
    dictGet (dictSet d name uid) t = dictGet d t := by
  unfold dictSet dictGet
  by_cases h : d.any (fun p => p.1 == name) = true
  · rw [if_pos h, find?_fst_map _ _ (fun p => by by_cases hp : p.1 = name <;> simp [hp])]
    cases hf : d.find? (fun p => p.1 == t) with
    | none => simp
    | some q =>
      have hq1 : q.1 = t := by simpa using List.find?_some hf
      have hq : (q.1 == name) = false := by
        simp only [hq1, beq_eq_false_iff_ne]
        exact fun hc => hne hc.symm
      simp [hq]
      rw [if_neg (fun hc : q.1 = name => hne (hc ▸ hq1))]
  · rw [if_neg h, List.find?_append]
    have h1 : (([(name, uid)] : Bucket).find? (fun p => p.1 == t)) = none := by
      have : ((name : String) == t) = false := by
        simp only [beq_eq_false_iff_ne]
        exact hne
      simp [List.find?, this]
    rw [h1]
    simp

theorem dictSet_any_ne (d : Bucket) (name uid t : String) (hne : name ≠ t) :
    (dictSet d name uid).any (fun p => p.1 == t) = d.any (fun p => p.1 == t) := by
  unfold dictSet
  by_cases h : d.any (fun p => p.1 == name) = true
  · rw [if_pos h, List.any_map]
    congr 1
    funext p
    by_cases hp : p.1 = name <;> simp [hp, Function.comp]
  · rw [if_neg h, List.any_append]
    simp [hne]

theorem dictSet_nodup_keys (d : Bucket) (name uid : String)
    (h : (d.map Prod.fst).Nodup) : ((dictSet d name uid).map Prod.fst).Nodup := by
  unfold dictSet
  by_cases ha : d.any (fun p => p.1 == name) = true
  · rw [if_pos ha, map_fst_map _ _ (fun p => by by_cases hp : p.1 = name <;> simp [hp])]
    exact h
  · rw [if_neg ha, List.map_append]
    have hnotin : name ∉ d.map Prod.fst := by
      intro hc
      obtain ⟨p, hp, hp1⟩ := List.mem_map.mp hc
      exact ha (List.any_eq_true.mpr ⟨p, hp, by simp [hp1]⟩)
    simp only [List.map_cons, List.map_nil]
    rw [List.nodup_append]
    refine ⟨h, List.nodup_singleton _, fun x hx hx2 => ?_⟩
    have hxn : x = name := by simpa using hx2
    exact hnotin (hxn ▸ hx)

/-! ### The bucket dict as a keyed family: `bucket_by_letter` in map form -/

theorem any_map_poly {α β : Type} (f : α → β) (l : List α) (p : β → Bool) :
    (l.map f).any p = l.any (p ∘ f) := by
  induction l with
  | nil => rfl
  | cons a t ih => simp [Function.comp, ih]

theorem emptyBuckets_eq : emptyBuckets = bucketKeys.map (fun k => (k, ([] : Bucket))) := by
  rw [bucketKeys, List.map_append]
  rfl

theorem bucketsInsert_mapForm (f : Char → Bucket) (name uid : String) :
    bucketsInsert (bucketKeys.map (fun k => (k, f k))) name uid
      = bucketKeys.map
          (fun k => (k, if keyOf name = some k then dictSet (f k) name uid else f k)) := by
  unfold bucketsInsert
  cases hd : name.data with
  | nil =>
    have hkey : keyOf name = none := by simp [keyOf, hd]
    simp [hkey]
  | cons c cs =>
    have hkey : keyOf name = some (pyUpperChar c) := by simp [keyOf, hd]
    dsimp only
    rw [any_map_poly]
    by_cases hmem : pyUpperChar c ∈ bucketKeys
    · have hany : (bucketKeys.any ((fun p : Char × Bucket => p.1 == pyUpperChar c) ∘
          (fun k => (k, f k)))) = true :=
        List.any_eq_true.mpr ⟨pyUpperChar c, hmem, by simp [Function.comp]⟩
      rw [if_pos hany, List.map_map]
      refine List.map_congr_left (fun k _ => ?_)
      by_cases hk : k = pyUpperChar c
      · subst hk
        simp [Function.comp, hkey]
      · have h1 : (k == pyUpperChar c) = false := by simp [hk]
        have h2 : ¬ keyOf name = some k := by
          rw [hkey]
          exact fun hc => hk (Option.some.inj hc).symm
        simp [Function.comp, h1, h2]
    · have hany : (bucketKeys.any ((fun p : Char × Bucket => p.1 == pyUpperChar c) ∘
          (fun k => (k, f k)))) = false := by
        rw [List.any_eq_false]
        intro k hk
        show ¬ (k == pyUpperChar c) = true
        simp only [beq_iff_eq]
        exact fun hc => hmem (hc ▸ hk)
      rw [hany]
      simp only [Bool.false_eq_true, if_false]
      refine (List.map_congr_left (fun k hk => ?_)).symm
      have h2 : ¬ keyOf name = some k := by
        rw [hkey]
        exact fun hc => hmem ((Option.some.inj hc) ▸ hk)
      simp [h2]

theorem foldl_mapForm (pairs : List (String × String)) (f : Char → Bucket) :
    pairs.foldl (fun bs p => bucketsInsert bs p.1 p.2) (bucketKeys.map (fun k => (k, f k)))
      = bucketKeys.map (fun k =>
          (k, pairs.foldl
                (fun d p => if keyOf p.1 = some k then dictSet d p.1 p.2 else d) (f k))) := by
  induction pairs generalizing f with
  | nil => simp
  | cons p ps ih =>
    rw [List.foldl_cons, bucketsInsert_mapForm,
        ih (fun k => if keyOf p.1 = some k then dictSet (f k) p.1 p.2 else f k)]
    simp [List.foldl_cons]

theorem bucket_by_letter_eq (pairs : List (String × String)) :
    bucket_by_letter pairs = bucketKeys.map (fun k => (k, bucketContent k pairs)) := by
  rw [bucket_by_letter, emptyBuckets_eq, foldl_mapForm]
  rfl

theorem find?_mapForm (f : Char → Bucket) (k : Char) (hk : k ∈ bucketKeys) :
    (bucketKeys.map (fun k' => (k', f k'))).find? (fun p => p.1 == k) = some (k, f k) := by
  rw [List.find?_map]
  have hfun : ((fun p : Char × Bucket => p.1 == k) ∘ (fun k' => (k', f k')))
      = fun k' => k' == k := rfl
  rw [hfun, find?_beq_self bucketKeys k hk]
  rfl

/-! ### Per-bucket replay lemmas -/

theorem dictGet_foldl_content (k : Char) (name : String) (hkey : keyOf name = some k)
    (ps : List (String × String)) :
    ∀ d : Bucket,
      dictGet (ps.foldl (fun d p => if keyOf p.1 = some k then dictSet d p.1 p.2 else d) d) name
        = (((ps.filter (fun p => p.1 == name)).getLast?).map Prod.snd).or (dictGet d name) := by
  induction ps with
  | nil => intro d; simp
  | cons p ps ih =>
    intro d
    rw [List.foldl_cons]
    by_cases hp : p.1 = name
    · have hkp : keyOf p.1 = some k := by rw [hp]; exact hkey
      rw [if_pos hkp, ih (dictSet d p.1 p.2)]
      have hfilter : (p :: ps).filter (fun p => p.1 == name)
          = p :: ps.filter (fun p => p.1 == name) := by
        simp [List.filter_cons, hp]
      rw [hfilter, getLast?_cons_or, option_map_or, Option.or_assoc]
      have hself : dictGet (dictSet d p.1 p.2) name = some p.2 := by
        rw [hp]
        exact dictGet_dictSet_self d name p.2
      rw [hself]
      rfl
    · have hfilter : (p :: ps).filter (fun p => p.1 == name)
          = ps.filter (fun p => p.1 == name) := by
        simp [List.filter_cons, hp]
      by_cases hkp : keyOf p.1 = some k
      · rw [if_pos hkp, ih (dictSet d p.1 p.2),
            dictGet_dictSet_ne d p.1 p.2 name hp, hfilter]
      · rw [if_neg hkp, ih d, hfilter]

theorem any_foldl_content_ne (k : Char) (name : String) (hkey : keyOf name ≠ some k)
    (ps : List (String × String)) :
    ∀ d : Bucket, d.any (fun q => q.1 == name) = false →
      ((ps.foldl (fun d p => if keyOf p.1 = some k then dictSet d p.1 p.2 else d) d).any
        (fun q => q.1 == name)) = false := by
  induction ps with
  | nil => intro d hd; simpa using hd
  | cons p ps ih =>
    intro d hd
    rw [List.foldl_cons]
    by_cases hkp : keyOf p.1 = some k
    · rw [if_pos hkp]
      have hp : p.1 ≠ name := by
        intro hc
        exact hkey (hc ▸ hkp)
      refine ih (dictSet d p.1 p.2) ?_
      rw [dictSet_any_ne d p.1 p.2 name hp]
      exact hd
    · rw [if_neg hkp]
      exact ih d hd

theorem nodup_foldl_content (k : Char) (ps : List (String × String)) :
    ∀ d : Bucket, (d.map Prod.fst).Nodup →
      (((ps.foldl (fun d p => if keyOf p.1 = some k then dictSet d p.1 p.2 else d) d).map
        Prod.fst)).Nodup := by
  induction ps with
  | nil => intro d hd; simpa using hd
  | cons p ps ih =>
    intro d hd
    rw [List.foldl_cons]
    by_cases hkp : keyOf p.1 = some k
    · rw [if_pos hkp]
      exact ih _ (dictSet_nodup_keys d p.1 p.2 hd)
    · rw [if_neg hkp]
      exact ih d hd

theorem any_of_dictGet_isSome (d : Bucket) (name u : String)
    (h : dictGet d name = some u) : d.any (fun q => q.1 == name) = true := by
  unfold dictGet at h
  cases hf : d.find? (fun p => p.1 == name) with
  | none => rw [hf] at h; cases h
  | some q =>
    exact List.any_eq_true.mpr ⟨q, List.mem_of_find?_eq_some hf, by simpa using List.find?_some hf⟩

example : compute_popular_tags [("a.json", some (.arr []))] (.int 10) = .error () := by rfl
example : rankTags [("a", 1)] (.str "abc") = .error () := by rfl
example : rankTags [("a", 1)] (.str " -7 ") = .ok [] := by rfl
example : rankTags [] (.str "abc") = .ok [] := by rfl
example : pyInt (.str "42") = some 42 := by decide

theorem memBucket_eq (pairs : List (String × String)) (k : Char) (name : String) :
    memBucket (bucket_by_letter pairs) k name
      = bucketKeys.any (fun k' => k' == k && (bucketContent k' pairs).any (fun q => q.1 == name)) := by
  rw [bucket_by_letter_eq, memBucket, any_map_poly]
  rfl

/-- C1: for every (name, uid) pair given to the bucketer, the bucket
assignment is computed from `first = uppercase(name[0])`: if `first` is one
of the 36 keys the name is inserted into that bucket, otherwise the pair is
dropped and the name appears in no output bucket at all. -/
theorem c1_bucket_assignment (pairs : List (String × String)) (name uid : String)
    (c : Char) (cs : List Char)
    (hmem : (name, uid) ∈ pairs) (hdata : name.data = c :: cs) :
    (pyUpperChar c ∈ bucketKeys →
      memBucket (bucket_by_letter pairs) (pyUpperChar c) name = true) ∧
    (pyUpperChar c ∉ bucketKeys →
      ∀ k : Char, memBucket (bucket_by_letter pairs) k name = false) := by
  have hkey : keyOf name = some (pyUpperChar c) := by simp [keyOf, hdata]
  constructor
  · intro hin
    rw [memBucket_eq]
    refine List.any_eq_true.mpr ⟨pyUpperChar c, hin, ?_⟩
    show (pyUpperChar c == pyUpperChar c &&
      (bucketContent (pyUpperChar c) pairs).any (fun q => q.1 == name)) = true
    simp only [beq_self_eq_true, Bool.true_and]
    have hget := dictGet_foldl_content (pyUpperChar c) name hkey pairs []
    have hmemf : (name, uid) ∈ pairs.filter (fun p => p.1 == name) :=
      List.mem_filter.mpr ⟨hmem, by simp⟩
    have hnil : pairs.filter (fun p => p.1 == name) ≠ [] := List.ne_nil_of_mem hmemf
    obtain ⟨q, hq⟩ := Option.isSome_iff_exists.mp (List.getLast?_isSome.mpr hnil)
    rw [hq] at hget
    unfold bucketContent
    exact any_of_dictGet_isSome _ name q.2 (by simpa using hget)
  · intro hnotin k
    rw [memBucket_eq]
    rw [List.any_eq_false]
    intro k' hk'
    show ¬ (k' == k && (bucketContent k' pairs).any (fun q => q.1 == name)) = true
    have hcontent : (bucketContent k' pairs).any (fun q => q.1 == name) = false := by
      unfold bucketContent
      refine any_foldl_content_ne k' name ?_ pairs [] rfl
      rw [hkey]
      exact fun hc => hnotin ((Option.some.inj hc) ▸ hk')
    simp [hcontent]

theorem c1_bucket_assignment_witness :
    (("Alice", "1") ∈ [("Alice", "1"), ("!x", "9")] ∧
     "Alice".data = 'A' :: ['l', 'i', 'c', 'e']) ∧
    ((pyUpperChar 'A' ∈ bucketKeys →
       memBucket (bucket_by_letter [("Alice", "1"), ("!x", "9")]) (pyUpperChar 'A') "Alice" = true) ∧
     (pyUpperChar 'A' ∉ bucketKeys →
       ∀ k : Char, memBucket (bucket_by_letter [("Alice", "1"), ("!x", "9")]) k "Alice" = false)) :=
  ⟨⟨by decide, by decide⟩,
   c1_bucket_assignment [("Alice", "1"), ("!x", "9")] "Alice" "1" 'A' ['l', 'i', 'c', 'e']
     (by decide) (by decide)⟩

/-- C7: for every input list, the bucketer's result has exactly the 36 keys
A-Z and 0-9 in order, and on the empty input every bucket is empty. -/
theorem c7_all_keys (pairs : List (String × String)) :
    (bucket_by_letter pairs).map Prod.fst = bucketKeys ∧
    (bucket_by_letter []).all (fun kv => kv.2.isEmpty) = true := by
  constructor
  · rw [bucket_by_letter_eq, List.map_map]
    have hfun : (Prod.fst ∘ fun k => (k, bucketContent k pairs)) = id := rfl
    rw [hfun, List.map_id]
  · decide

/-- C8: for every pair list, the bucket a name routes to maps that name to
the uid of the LAST pair with that name in processing order, and the keys
within every bucket are unique. -/
theorem c8_last_write_wins (pairs : List (String × String)) (name : String)
    (c : Char) (cs : List Char) (hdata : name.data = c :: cs)
    (hk : pyUpperChar c ∈ bucketKeys) :
    bucketLookup (bucket_by_letter pairs) (pyUpperChar c) name
      = ((pairs.filter (fun p => p.1 == name)).getLast?).map Prod.snd ∧
    ∀ kv ∈ bucket_by_letter pairs, (kv.2.map Prod.fst).Nodup := by
  have hkey : keyOf name = some (pyUpperChar c) := by simp [keyOf, hdata]
  constructor
  · rw [bucket_by_letter_eq, bucketLookup, find?_mapForm _ _ hk]
    show dictGet (bucketContent (pyUpperChar c) pairs) name = _
    unfold bucketContent
    rw [dictGet_foldl_content (pyUpperChar c) name hkey pairs []]
    cases ((pairs.filter (fun p => p.1 == name)).getLast?).map Prod.snd <;> rfl
  · intro kv hkv
    rw [bucket_by_letter_eq] at hkv
    obtain ⟨k, hk', rfl⟩ := List.mem_map.mp hkv
    show ((bucketContent k pairs).map Prod.fst).Nodup
    unfold bucketContent
    exact nodup_foldl_content k pairs [] (by simp)

theorem c8_last_write_wins_witness :
    ("Bob".data = 'B' :: ['o', 'b'] ∧ pyUpperChar 'B' ∈ bucketKeys) ∧
    (bucketLookup (bucket_by_letter [("Bob", "1"), ("Ann", "3"), ("Bob", "2")]) (pyUpperChar 'B') "Bob"
      = ((([("Bob", "1"), ("Ann", "3"), ("Bob", "2")] : List (String × String)).filter
          (fun p => p.1 == "Bob")).getLast?).map Prod.snd ∧
     ∀ kv ∈ bucket_by_letter [("Bob", "1"), ("Ann", "3"), ("Bob", "2")],
       (kv.2.map Prod.fst).Nodup) :=
  ⟨⟨by decide, by decide⟩,
   c8_last_write_wins [("Bob", "1"), ("Ann", "3"), ("Bob", "2")] "Bob" 'B' ['o', 'b']
     (by decide) (by decide)⟩

/-! ### The sort key order: totality, transitivity, antisymmetry -/

theorem lexLeChars_total (a : List Char) : ∀ b, lexLeChars a b = true ∨ lexLeChars b a = true := by
  induction a with
  | nil => intro b; left; rfl
  | cons x xs ih =>
    intro b
    cases b with
    | nil => right; rfl
    | cons y ys =>
      by_cases hxy : x = y
      · subst hxy
        rcases ih ys with h | h
        · left; simpa [lexLeChars] using h
        · right; simpa [lexLeChars] using h
      · rcases lt_or_gt_of_ne hxy with h | h
        · left; simp [lexLeChars, hxy, h]
        · right; simp [lexLeChars, Ne.symm hxy, h]

theorem lexLeChars_trans (a : List Char) :
    ∀ b c, lexLeChars a b = true → lexLeChars b c = true → lexLeChars a c = true := by
  induction a with
  | nil => intro b c _ _; rfl
  | cons x xs ih =>
    intro b c h1 h2
    cases b with
    | nil => simp [lexLeChars] at h1
    | cons y ys =>
      cases c with
      | nil => simp [lexLeChars] at h2
      | cons z zs =>
        simp only [lexLeChars] at h1 h2 ⊢
        by_cases hxy : x = y
        · subst hxy
          rw [if_pos rfl] at h1
          by_cases hyz : x = z
          · subst hyz
            rw [if_pos rfl] at h2 ⊢
            exact ih ys zs h1 h2
          · rw [if_neg hyz] at h2 ⊢
            exact h2
        · rw [if_neg hxy] at h1
          have hlt1 : x < y := of_decide_eq_true h1
          by_cases hyz : y = z
          · subst hyz
            rw [if_neg hxy]
            exact decide_eq_true hlt1
          · rw [if_neg hyz] at h2
            have hlt2 : y < z := of_decide_eq_true h2
            have hxz : x < z := hlt1.trans hlt2
            rw [if_neg (ne_of_lt hxz)]
            exact decide_eq_true hxz

theorem lexLeChars_antisymm (a : List Char) :
    ∀ b, lexLeChars a b = true → lexLeChars b a = true → a = b := by
  induction a with
  | nil =>
    intro b _ h2
    cases b with
    | nil => rfl
    | cons y ys => simp [lexLeChars] at h2
  | cons x xs ih =>
    intro b h1 h2
    cases b with
    | nil => simp [lexLeChars] at h1
    | cons y ys =>
      simp only [lexLeChars] at h1 h2
      by_cases hxy : x = y
      · subst hxy
        rw [if_pos rfl] at h1 h2
        rw [ih ys h1 h2]
      · rw [if_neg hxy] at h1
        rw [if_neg (Ne.symm hxy)] at h2
        have hlt1 : x < y := of_decide_eq_true h1
        have hlt2 : y < x := of_decide_eq_true h2
        exact absurd hlt2 (not_lt_of_gt hlt1)

theorem string_data_inj (a b : String) (h : a.data = b.data) : a = b := by
  cases a
  cases b
  exact congrArg String.mk h

instance : IsTotal (String × Nat) tagRel :=
  ⟨fun a b => by
    rcases Nat.lt_trichotomy a.2 b.2 with h | h | h
    · right; left; exact h
    · rcases lexLeChars_total a.1.data b.1.data with hl | hl
      · left; right; exact ⟨h, hl⟩
      · right; right; exact ⟨h.symm, hl⟩
    · left; left; exact h⟩

instance : IsTrans (String × Nat) tagRel :=
  ⟨fun a b c hab hbc => by
    rcases hab with h1 | ⟨e1, l1⟩ <;> rcases hbc with h2 | ⟨e2, l2⟩
    · left; omega
    · left; omega
    · left; omega
    · right; exact ⟨e1.trans e2, lexLeChars_trans _ _ _ l1 l2⟩⟩

instance : IsAntisymm (String × Nat) tagRel :=
  ⟨fun a b hab hba => by
    rcases hab with h1 | ⟨e1, l1⟩ <;> rcases hba with h2 | ⟨e2, l2⟩
    · omega
    · omega
    · omega
    · have hs : a.1 = b.1 := string_data_inj _ _ (lexLeChars_antisymm _ _ l1 l2)
      exact Prod.ext hs e1⟩

/-- Helper for the ranking-order theorem: at any position of the sorted pair
list whose output tag is `t`, the pair is exactly the unique entry `(t, ct)`
of the counter, provided counter keys are distinct. -/
theorem sorted_get_of_out (counter : TagCounter) (p : Nat)
    (hp : p < (counter.insertionSort tagRel).length)
    (hnd : (counter.map Prod.fst).Nodup)
    (t : String) (ct : Nat)
    (hfst : ((counter.insertionSort tagRel).get ⟨p, hp⟩).1 = t)
    (hmemt : (t, ct) ∈ counter) :
    (counter.insertionSort tagRel).get ⟨p, hp⟩ = (t, ct) := by
  have hperm := List.perm_insertionSort tagRel counter
  have hndS : ((counter.insertionSort tagRel).map Prod.fst).Nodup :=
    ((hperm.map Prod.fst).nodup_iff).mpr hnd
  obtain ⟨q, hq⟩ := List.mem_iff_get.mp (hperm.mem_iff.mpr hmemt)
  have hLlen : ((counter.insertionSort tagRel).map Prod.fst).length
      = (counter.insertionSort tagRel).length := List.length_map _ _
  have hplen : p < ((counter.insertionSort tagRel).map Prod.fst).length := by
    rw [hLlen]
    exact hp
  have hqlen : q.val < ((counter.insertionSort tagRel).map Prod.fst).length := by
    rw [hLlen]
    exact q.isLt
  have hgetL_p : ((counter.insertionSort tagRel).map Prod.fst).get ⟨p, hplen⟩ = t := by
    simp only [List.get_eq_getElem, List.getElem_map]
    exact hfst
  have hgetL_q : ((counter.insertionSort tagRel).map Prod.fst).get ⟨q.val, hqlen⟩ = t := by
    simp only [List.get_eq_getElem, List.getElem_map]
    rw [show (counter.insertionSort tagRel)[q.val] = (counter.insertionSort tagRel).get q from rfl,
        hq]
  have hfin : (⟨p, hplen⟩ : Fin _) = ⟨q.val, hqlen⟩ :=
    (hndS.get_inj_iff).mp (hgetL_p.trans hgetL_q.symm)
  have hpq : p = q.val := congrArg Fin.val hfin
  have hfin2 : (⟨p, hp⟩ : Fin (counter.insertionSort tagRel).length) = q := Fin.ext hpq
  rw [hfin2, hq]

/-- C2: in the ranked output, for two distinct tags of the counter the one
with the strictly higher count comes first, equal counts are broken by the
lexicographically smaller tag string first, and the ranking is invariant
under permutation of the counter — a deterministic function of the counts. -/
theorem c2_rank_total_order (counter : TagCounter) (limit : Limit) (out : List String)
    (t1 t2 : String) (c1 c2 : Nat)
    (hnd : (counter.map Prod.fst).Nodup)
    (h1 : (t1, c1) ∈ counter) (h2 : (t2, c2) ∈ counter) (hne : t1 ≠ t2)
    (hout : rankTags counter limit = .ok out)
    (hprec : c2 < c1 ∨ (c1 = c2 ∧ lexLeChars t1.data t2.data = true)) :
    (∀ i j : Fin out.length, out.get i = t1 → out.get j = t2 → (i : Nat) < (j : Nat)) ∧
    (∀ counter2 : TagCounter, counter.Perm counter2 →
      rankTags counter2 limit = rankTags counter limit) := by
  constructor
  · intro i j hgi hgj
    unfold rankTags at hout
    by_cases hemp : counter.isEmpty
    · rw [if_pos hemp] at hout
      have hnil : out = [] := (Except.ok.inj hout).symm
      exact absurd i.isLt (by simp [hnil])
    · rw [if_neg hemp] at hout
      cases hpi : pyInt limit with
      | none => rw [hpi] at hout; cases hout
      | some n =>
        rw [hpi] at hout
        have hout2 : out = ((counter.insertionSort tagRel).map Prod.fst).take (max 0 n).toNat :=
          (Except.ok.inj hout).symm
        subst hout2
        have hsort := List.sorted_insertionSort tagRel counter
        have hlenLe : (((counter.insertionSort tagRel).map Prod.fst).take (max 0 n).toNat).length
            ≤ (counter.insertionSort tagRel).length := by
          rw [List.length_take, List.length_map]
          exact min_le_right _ _
        have hi' : (i : Nat) < (counter.insertionSort tagRel).length :=
          lt_of_lt_of_le i.isLt hlenLe
        have hj' : (j : Nat) < (counter.insertionSort tagRel).length :=
          lt_of_lt_of_le j.isLt hlenLe
        have hfsti : ((counter.insertionSort tagRel).get ⟨i, hi'⟩).1 = t1 := by
          rw [← hgi]
          simp only [List.get_eq_getElem, List.getElem_take, List.getElem_map]
        have hfstj : ((counter.insertionSort tagRel).get ⟨j, hj'⟩).1 = t2 := by
          rw [← hgj]
          simp only [List.get_eq_getElem, List.getElem_take, List.getElem_map]
        have hgi' := sorted_get_of_out counter i hi' hnd t1 c1 hfsti h1
        have hgj' := sorted_get_of_out counter j hj' hnd t2 c2 hfstj h2
        by_contra hcon
        have hji : (j : Nat) ≤ (i : Nat) := Nat.le_of_not_lt hcon
        rcases lt_or_eq_of_le hji with hltji | heq
        · have hrel := hsort.rel_get_of_lt
            (show (⟨j, hj'⟩ : Fin (counter.insertionSort tagRel).length) < ⟨i, hi'⟩ from hltji)
          rw [hgi', hgj'] at hrel
          rcases hrel with hlt2 | ⟨heq2, hlex2⟩
          · rcases hprec with h | ⟨h, _⟩ <;> simp at hlt2 <;> omega
          · rcases hprec with h | ⟨h, hlex1⟩
            · simp at heq2
              omega
            · exact hne (string_data_inj _ _ (lexLeChars_antisymm _ _ hlex1 hlex2))
        · have hij : i = j := Fin.ext heq.symm
          rw [hij, hgj] at hgi
          exact hne hgi.symm
  · intro counter2 hp2
    unfold rankTags
    have hlen := hp2.length_eq
    have hie : counter2.isEmpty = counter.isEmpty := by
      cases counter with
      | nil =>
        simp only [List.length_nil] at hlen
        rw [List.length_eq_zero.mp hlen.symm]
      | cons a tl =>
        cases counter2 with
        | nil => simp at hlen
        | cons b u => rfl
    rw [hie]
    by_cases hemp : counter.isEmpty
    · rw [if_pos hemp, if_pos hemp]
    · rw [if_neg hemp, if_neg hemp]
      cases hpi : pyInt limit with
      | none => rfl
      | some n =>
        have hsorted_eq : counter2.insertionSort tagRel = counter.insertionSort tagRel :=
          List.eq_of_perm_of_sorted
            ((List.perm_insertionSort tagRel counter2).trans
              (hp2.symm.trans (List.perm_insertionSort tagRel counter).symm))
            (List.sorted_insertionSort tagRel counter2)
            (List.sorted_insertionSort tagRel counter)
        rw [hsorted_eq]

theorem c2_rank_total_order_witness :
    ((([("b", 1), ("a", 2)] : TagCounter).map Prod.fst).Nodup ∧
     ("a", 2) ∈ ([("b", 1), ("a", 2)] : TagCounter) ∧
     ("b", 1) ∈ ([("b", 1), ("a", 2)] : TagCounter) ∧
     rankTags [("b", 1), ("a", 2)] (Limit.int 5) = .ok ["a", "b"]) ∧
    ((∀ i j : Fin (["a", "b"] : List String).length,
        (["a", "b"] : List String).get i = "a" → (["a", "b"] : List String).get j = "b" →
        (i : Nat) < (j : Nat)) ∧
     (∀ counter2 : TagCounter, ([("b", 1), ("a", 2)] : TagCounter).Perm counter2 →
        rankTags counter2 (Limit.int 5) = rankTags [("b", 1), ("a", 2)] (Limit.int 5))) :=
  ⟨⟨by decide, by decide, by decide, by rfl⟩,
   c2_rank_total_order [("b", 1), ("a", 2)] (Limit.int 5) ["a", "b"] "a" "b" 2 1
     (by decide) (by decide) (by decide) (by decide) (by rfl) (Or.inl (by decide))⟩

/-- C5 counterexample: a non-numeric `limit` is NOT handled by clamping: with
a non-empty counter, `int(limit)` raises and no output is produced. -/
theorem c5_counterexample :
    rankTags [("a", 1)] (Limit.str "abc") = .error () ∧
    ∀ out : List String, rankTags [("a", 1)] (Limit.str "abc") ≠ .ok out := by
  constructor
  · rfl
  · intro out h
    rw [show rankTags [("a", 1)] (Limit.str "abc") = .error () from rfl] at h
    cases h

/-- C5 amended: the ranker truncates to `max(0, int(limit))` entries, so any
NEGATIVE integer limit is clamped to 0 and yields the empty output; a limit
that `int()` cannot convert raises (error) whenever the counter is
non-empty; with an empty counter the ranker returns `[]` before even
converting the limit. -/
theorem c5_limit_handling (counter : TagCounter) (n : Int) (limit : Limit) :
    (n ≤ 0 → rankTags counter (.int n) = .ok []) ∧
    (pyInt limit = none → counter ≠ [] → rankTags counter limit = .error ()) ∧
    rankTags [] limit = .ok [] := by
  refine ⟨fun hn => ?_, fun hpi hne => ?_, ?_⟩
  · unfold rankTags
    by_cases hemp : counter.isEmpty
    · rw [if_pos hemp]
    · rw [if_neg hemp]
      simp only [pyInt]
      rw [max_eq_left hn]
      simp
  · unfold rankTags
    have hie : counter.isEmpty = false := by
      cases counter with
      | nil => exact absurd rfl hne
      | cons a t => rfl
    rw [if_neg (by simp [hie]), hpi]
  · rfl

theorem c5_limit_handling_witness :
    rankTags [("a", 1)] (Limit.int (-3)) = .ok [] ∧
    rankTags [("a", 1)] (Limit.str "abc") = .error () :=
  ⟨(c5_limit_handling [("a", 1)] (-3) (Limit.str "abc")).1 (by decide),
   (c5_limit_handling [("a", 1)] (-3) (Limit.str "abc")).2.1 (by rfl) (by decide)⟩

/-- C6: for every counter and non-negative integer limit, the ranked output
has length at most the limit and at most the number of counter entries
(distinct tags), and an empty counter yields the empty output. -/
theorem c6_length_bounds (counter : TagCounter) (n : Int) (out : List String)
    (hn : 0 ≤ n) (hout : rankTags counter (.int n) = .ok out) :
    (out.length : Int) ≤ n ∧ out.length ≤ counter.length ∧ (counter = [] → out = []) := by
  unfold rankTags at hout
  by_cases hemp : counter.isEmpty
  · rw [if_pos hemp] at hout
    have hnil : out = [] := (Except.ok.inj hout).symm
    subst hnil
    exact ⟨by simpa using hn, Nat.zero_le _, fun _ => rfl⟩
  · rw [if_neg hemp] at hout
    simp only [pyInt] at hout
    have hout2 : out = ((counter.insertionSort tagRel).map Prod.fst).take (max 0 n).toNat :=
      (Except.ok.inj hout).symm
    subst hout2
    refine ⟨?_, ?_, ?_⟩
    · rw [List.length_take]
      have h1 : min (max 0 n).toNat (((counter.insertionSort tagRel).map Prod.fst).length)
          ≤ (max 0 n).toNat := min_le_left _ _
      calc ((min (max 0 n).toNat
              (((counter.insertionSort tagRel).map Prod.fst).length) : Nat) : Int)
            ≤ ((max 0 n).toNat : Int) := by exact_mod_cast h1
        _ = max 0 n := Int.toNat_of_nonneg (le_max_left 0 n)
        _ = n := max_eq_right hn
    · rw [List.length_take, List.length_map, List.length_insertionSort]
      exact min_le_right _ _
    · intro hc
      subst hc
      simp at hemp

theorem c6_length_bounds_witness :
    ((0 : Int) ≤ 1 ∧ rankTags [("a", 2), ("b", 1)] (Limit.int 1) = .ok ["a"]) ∧
    (((["a"] : List String).length : Int) ≤ 1 ∧
     (["a"] : List String).length ≤ ([("a", 2), ("b", 1)] : TagCounter).length ∧
     (([("a", 2), ("b", 1)] : TagCounter) = [] → (["a"] : List String) = [])) :=
  ⟨⟨by decide, by rfl⟩,
   c6_length_bounds [("a", 2), ("b", 1)] 1 ["a"] (by decide) (by rfl)⟩

/-! ### Counter lemmas -/

theorem countOf_counterAdd_self (c : TagCounter) (t : String) :
    countOf (counterAdd c t) t = countOf c t + 1 := by
  unfold counterAdd countOf
  by_cases h : c.any (fun p => p.1 == t) = true
  · rw [if_pos h, find?_fst_map _ _ (fun p => by by_cases hp : p.1 = t <;> simp [hp])]
    have hs := find?_isSome_of_any c t h
    obtain ⟨q, hq⟩ := Option.isSome_iff_exists.mp hs
    have hq1 : q.1 = t := by simpa using List.find?_some hq
    simp [hq, hq1]
  · have hf : c.any (fun p => p.1 == t) = false := by
      revert h
      cases c.any (fun p => p.1 == t) <;> simp
    rw [if_neg h, List.find?_append, find?_eq_none_of_any_false _ t hf]
    simp [List.find?]

theorem countOf_counterAdd_ne (c : TagCounter) (s t : String) (hne : s ≠ t) :
    countOf (counterAdd c s) t = countOf c t := by
  unfold counterAdd countOf
  by_cases h : c.any (fun p => p.1 == s) = true
  · rw [if_pos h, find?_fst_map _ _ (fun p => by by_cases hp : p.1 = s <;> simp [hp])]
    cases hf : c.find? (fun p => p.1 == t) with
    | none => simp
    | some q =>
      have hq1 : q.1 = t := by simpa using List.find?_some hf
      have hb : (q.1 == s) = false := by
        simp only [beq_eq_false_iff_ne]
        exact fun hc => hne (hc ▸ hq1)
      simp only [hb, Option.map_map]
      simp
      rw [if_neg (fun hc : q.1 = s => hne (hc ▸ hq1))]
  · rw [if_neg h, List.find?_append]
    have h1 : (([(s, 1)] : TagCounter).find? (fun p => p.1 == t)) = none := by
      have hb : ((s : String) == t) = false := by
        simp only [beq_eq_false_iff_ne]
        exact hne
      simp [List.find?, hb]
    rw [h1]
    simp

theorem countOf_foldl (ts : List String) :
    ∀ c t, countOf (ts.foldl counterAdd c) t = countOf c t + ts.count t := by
  induction ts with
  | nil => intro c t; simp
  | cons s ts ih =>
    intro c t
    rw [List.foldl_cons, ih]
    by_cases hst : s = t
    · subst hst
      rw [countOf_counterAdd_self, List.count_cons_self]
      omega
    · rw [countOf_counterAdd_ne c s t hst, List.count_cons_of_ne (Ne.symm hst)]

theorem tallyAll_ok_countOf (files : List (String × Option JValue)) :
    ∀ c0 c t, tallyAll c0 files = .ok c →
      countOf c t = countOf c0 t +
        (files.map (fun f => match f.2 with
          | some (JValue.obj fs) => (normalizedCandidates fs).count t
          | _ => 0)).sum := by
  induction files with
  | nil =>
    intro c0 c t h
    simp only [tallyAll] at h
    cases h
    simp
  | cons f fs ih =>
    intro c0 c t h
    cases f with
    | mk fname doc =>
      cases doc with
      | none =>
        simp only [tallyAll, tallyFile] at h
        have := ih c0 c t h
        simpa using this
      | some v =>
        cases v with
        | str s => simp only [tallyAll, tallyFile] at h; exact Except.noConfusion h
        | num n => simp only [tallyAll, tallyFile] at h; exact Except.noConfusion h
        | bool b => simp only [tallyAll, tallyFile] at h; exact Except.noConfusion h
        | null => simp only [tallyAll, tallyFile] at h; exact Except.noConfusion h
        | arr xs => simp only [tallyAll, tallyFile] at h; exact Except.noConfusion h
        | obj flds =>
          simp only [tallyAll, tallyFile] at h
          have := ih ((normalizedCandidates flds).foldl counterAdd c0) c t h
          rw [countOf_foldl] at this
          simp only [List.map_cons, List.sum_cons]
          omega

theorem computeCountsE_countOf (files : List (String × Option JValue)) (c : TagCounter)
    (t : String) (h : computeCountsE files = .ok c) :
    countOf c t = ((files.filter (fun f => isJsonFile f.1)).map
        (fun f => match f.2 with
          | some (JValue.obj fs) => (normalizedCandidates fs).count t
          | _ => 0)).sum := by
  have := tallyAll_ok_countOf (files.filter (fun f => isJsonFile f.1)) [] c t h
  simpa [countOf] using this

theorem filterMap_norm_eq (l : List String) :
    l.filterMap (fun t =>
      let n := pyLower (pyStrip t)
      if n.data.isEmpty then none else some n)
    = (l.map (fun s => pyLower (pyStrip s))).filter (fun s => !s.data.isEmpty) := by
  induction l with
  | nil => rfl
  | cons a l ih =>
    by_cases h : (pyLower (pyStrip a)).data.isEmpty = true
    · rw [List.filterMap_cons]
      simp only [h, if_true]
      rw [List.map_cons, List.filter_cons_of_neg (by simp [h])]
      exact ih
    · have hb : (pyLower (pyStrip a)).data.isEmpty = false := by
        revert h
        cases (pyLower (pyStrip a)).data.isEmpty <;> simp
      rw [List.filterMap_cons]
      simp only [hb, Bool.false_eq_true, if_false]
      rw [List.map_cons, List.filter_cons_of_pos (by simp [hb]), ih]

/-- C3: the tag candidates of a record are exactly the spec's two shapes
(the aggregated `tags` field as list-of-strings or comma-split string, plus
every `tag<digits>` keyed string field); normalization trims, lower-cases
and discards empties; and the global count of a tag is the sum over
processed records of its occurrences among that record's normalized
candidates. -/
theorem c3_tag_candidates (fields : List (String × JValue))
    (files : List (String × Option JValue)) (c : TagCounter) (t : String)
    (hok : computeCountsE files = .ok c) :
    tagCandidates fields = specTagCandidates fields ∧
    normalizedCandidates fields
      = ((tagCandidates fields).map (fun s => pyLower (pyStrip s))).filter
          (fun s => !s.data.isEmpty) ∧
    countOf c t = ((files.filter (fun f => isJsonFile f.1)).map
        (fun f => match f.2 with
          | some (JValue.obj fs) => (normalizedCandidates fs).count t
          | _ => 0)).sum := by
  refine ⟨?_, filterMap_norm_eq _, computeCountsE_countOf files c t hok⟩
  unfold tagCandidates specTagCandidates
  congr 1
  · cases hg : pyGet fields "tags" with
    | none => rfl
    | some v => cases v <;> rfl
  · have hfun : (fun kv : String × JValue =>
        match kv.2 with
        | JValue.str v =>
          let kl := pyLower kv.1
          if pyIsPre "tag" kl && pyIsDigitStr (pyDrop kl 3) then some v else none
        | _ => none)
      = (fun kv : String × JValue =>
        match kv.2 with
        | JValue.str v =>
          if pyIsPre "tag" (pyLower kv.1) &&
             !(pyDrop (pyLower kv.1) 3).data.isEmpty &&
             (pyDrop (pyLower kv.1) 3).data.all Char.isDigit then some v else none
        | _ => none) := by
      funext kv
      cases kv.2 <;> simp [pyIsDigitStr, Bool.and_assoc]
    rw [hfun]

theorem c3_tag_candidates_witness :
    computeCountsE [("a.json", some (JValue.obj [("tags", JValue.str "X, y"), ("tag1", JValue.str "x")]))]
      = .ok [("x", 2), ("y", 1)] ∧
    (tagCandidates [("tags", JValue.str "X, y"), ("tag1", JValue.str "x")]
      = specTagCandidates [("tags", JValue.str "X, y"), ("tag1", JValue.str "x")] ∧
     normalizedCandidates [("tags", JValue.str "X, y"), ("tag1", JValue.str "x")]
      = ((tagCandidates [("tags", JValue.str "X, y"), ("tag1", JValue.str "x")]).map
          (fun s => pyLower (pyStrip s))).filter (fun s => !s.data.isEmpty) ∧
     countOf [("x", 2), ("y", 1)] "x"
      = ((([("a.json", some (JValue.obj [("tags", JValue.str "X, y"), ("tag1", JValue.str "x")]))]
            : List (String × Option JValue)).filter (fun f => isJsonFile f.1)).map
          (fun f => match f.2 with
            | some (JValue.obj fs) => (normalizedCandidates fs).count "x"
            | _ => 0)).sum) :=
  ⟨by rfl,
   c3_tag_candidates [("tags", JValue.str "X, y"), ("tag1", JValue.str "x")]
     [("a.json", some (JValue.obj [("tags", JValue.str "X, y"), ("tag1", JValue.str "x")]))]
     [("x", 2), ("y", 1)] "x" (by rfl)⟩

/-- C4 counterexample: a record whose `name` field is a non-string value is
NOT stringified — `.strip()` raises, the exception is caught, and the record
contributes no pair, contrary to the claim that it yields ("123", uid). -/
theorem c4_counterexample :
    processRecord (JValue.obj [("name", JValue.num 123)]) = LoadOutcome.errored ∧
    load_users [("123.json", some (JValue.obj [("name", JValue.num 123)]))] = [] ∧
    load_users [("123.json", some (JValue.obj [("name", JValue.num 123)]))]
      ≠ [("123", "123")] :=
  ⟨rfl, rfl, by decide⟩

/-- C4 amended: the `name` field is used only when it is a string: then it
is trimmed of whitespace, and if the trimmed result is empty (or the field
is missing, defaulting to the empty string) the record is skipped without
error; a record whose `name` value is NOT a string raises, the exception is
caught, and the record is skipped (no stringification), contributing no
(name, id) pair either way. -/
theorem c4_name_handling (fields : List (String × JValue)) :
    (∀ s, pyGet fields "name" = some (.str s) →
      processRecord (.obj fields)
        = (if (pyStrip s).data.isEmpty then .skipped else .pair (pyStrip s))) ∧
    (pyGet fields "name" = none → processRecord (.obj fields) = .skipped) ∧
    (∀ v, pyGet fields "name" = some v → v.isStr = false →
      processRecord (.obj fields) = .errored) ∧
    (∀ fname, (∀ n, processRecord (.obj fields) ≠ .pair n) →
      processFile (fname, some (.obj fields)) = none) := by
  refine ⟨fun s hs => ?_, fun hn => ?_, fun v hv hvs => ?_, fun fname hnp => ?_⟩
  · unfold processRecord
    dsimp only
    rw [hs]
    rfl
  · unfold processRecord
    dsimp only
    rw [hn]
    rfl
  · unfold processRecord
    dsimp only
    rw [hv]
    cases v with
    | str s => simp [JValue.isStr] at hvs
    | num n => rfl
    | bool b => rfl
    | null => rfl
    | arr xs => rfl
    | obj fs => rfl
  · unfold processFile
    by_cases hj : isJsonFile fname = true
    · rw [if_pos hj]
      cases hres : processRecord (.obj fields) with
      | pair n => exact absurd hres (hnp n)
      | skipped => simp [hres]
      | errored => simp [hres]
    · rw [if_neg hj]

theorem c4_name_handling_witness :
    (pyGet [("name", JValue.str " Bo ")] "name" = some (JValue.str " Bo ") ∧
     processRecord (JValue.obj [("name", JValue.str " Bo ")])
       = (if (pyStrip " Bo ").data.isEmpty then LoadOutcome.skipped
          else LoadOutcome.pair (pyStrip " Bo "))) ∧
    (pyGet [("name", JValue.num 1)] "name" = some (JValue.num 1) ∧
     (JValue.num 1).isStr = false ∧
     processRecord (JValue.obj [("name", JValue.num 1)]) = LoadOutcome.errored) :=
  ⟨⟨by rfl, (c4_name_handling [("name", JValue.str " Bo ")]).1 " Bo " (by rfl)⟩,
   ⟨by rfl, by rfl,
    (c4_name_handling [("name", JValue.num 1)]).2.2.1 (JValue.num 1) (by rfl) (by rfl)⟩⟩

/-- C9: `load_users` is total — every per-record exception (a document that
is not an object, a non-string `name`) is caught, that record contributes no
pair, enumeration continues, and a read/parse failure likewise contributes
nothing. -/
theorem c9_load_users_total (d : JValue) (fields : List (String × JValue)) (v : JValue)
    (files1 files2 : List (String × Option JValue)) (f : String × Option JValue) :
    (d.isObj = false → processRecord d = .errored) ∧
    (pyGet fields "name" = some v → v.isStr = false → processRecord (.obj fields) = .errored) ∧
    (processFile f = none →
      load_users (files1 ++ f :: files2) = load_users (files1 ++ files2)) ∧
    (∀ fname, processFile (fname, none) = none) := by
  refine ⟨fun hobj => ?_, fun hv hvs => ?_, fun hf => ?_, fun fname => ?_⟩
  · cases d with
    | obj fs => simp [JValue.isObj] at hobj
    | str s => rfl
    | num n => rfl
    | bool b => rfl
    | null => rfl
    | arr xs => rfl
  · unfold processRecord
    dsimp only
    rw [hv]
    cases v with
    | str s => simp [JValue.isStr] at hvs
    | num n => rfl
    | bool b => rfl
    | null => rfl
    | arr xs => rfl
    | obj fs => rfl
  · simp [load_users, List.filterMap_append, List.filterMap_cons, hf]
  · unfold processFile
    by_cases hj : isJsonFile fname = true
    · rw [if_pos hj]
    · rw [if_neg hj]

theorem c9_load_users_total_witness :
    ((JValue.arr []).isObj = false ∧
     pyGet [("name", JValue.null)] "name" = some JValue.null ∧
     JValue.null.isStr = false ∧
     processFile ("c.json", some (JValue.arr [])) = none) ∧
    (processRecord (JValue.arr []) = .errored ∧
     processRecord (.obj [("name", JValue.null)]) = .errored ∧
     load_users ([("a.json", some (JValue.obj [("name", JValue.str "A")]))] ++
        ("c.json", some (JValue.arr [])) :: [("b.json", some (JValue.obj [("name", JValue.str "B")]))])
      = load_users ([("a.json", some (JValue.obj [("name", JValue.str "A")]))] ++
          [("b.json", some (JValue.obj [("name", JValue.str "B")]))]) ∧
     processFile ("x.json", none) = none) :=
  ⟨⟨by rfl, by rfl, by rfl, by rfl⟩,
   ⟨(c9_load_users_total (JValue.arr []) [("name", JValue.null)] JValue.null
       [("a.json", some (JValue.obj [("name", JValue.str "A")]))]
       [("b.json", some (JValue.obj [("name", JValue.str "B")]))]
       ("c.json", some (JValue.arr []))).1 (by rfl),
    (c9_load_users_total (JValue.arr []) [("name", JValue.null)] JValue.null
       [("a.json", some (JValue.obj [("name", JValue.str "A")]))]
       [("b.json", some (JValue.obj [("name", JValue.str "B")]))]
       ("c.json", some (JValue.arr []))).2.1 (by rfl) (by rfl),
    (c9_load_users_total (JValue.arr []) [("name", JValue.null)] JValue.null
       [("a.json", some (JValue.obj [("name", JValue.str "A")]))]
       [("b.json", some (JValue.obj [("name", JValue.str "B")]))]
       ("c.json", some (JValue.arr []))).2.2.1 (by rfl),
    (c9_load_users_total (JValue.arr []) [("name", JValue.null)] JValue.null
       [("a.json", some (JValue.obj [("name", JValue.str "A")]))]
       [("b.json", some (JValue.obj [("name", JValue.str "B")]))]
       ("c.json", some (JValue.arr []))).2.2.2 "x.json"⟩⟩

/-- C10: both the loader and the tag aggregator consider only files whose
name ends in ".json" case-insensitively, the id is the filename minus its
final 5 characters, and "USER.JSON" is processed with id "USER". -/
theorem c10_json_filter (files : List (String × Option JValue)) :
    load_users files = load_users (files.filter (fun f => isJsonFile f.1)) ∧
    computeCountsE files = computeCountsE (files.filter (fun f => isJsonFile f.1)) ∧
    isJsonFile "USER.JSON" = true ∧ uidOf "USER.JSON" = "USER" ∧
    load_users [("USER.JSON", some (.obj [("name", .str "Ann")]))] = [("Ann", "USER")] := by
  refine ⟨?_, ?_, by decide, by decide, by decide⟩
  · unfold load_users
    induction files with
    | nil => rfl
    | cons f fs ih =>
      by_cases hj : isJsonFile f.1 = true
      · rw [List.filter_cons]
        simp only [hj, if_true]
        rw [List.filterMap_cons, List.filterMap_cons, ih]
      · have hf : processFile f = none := by
          unfold processFile
          rw [if_neg hj]
        have hjf : isJsonFile f.1 = false := by
          revert hj
          cases isJsonFile f.1 <;> simp
        rw [List.filter_cons]
        simp only [hjf, Bool.false_eq_true, if_false]
        simp only [List.filterMap_cons, hf]
        exact ih
  · unfold computeCountsE
    rw [List.filter_filter]
    have hpred : (fun (f : String × Option JValue) => isJsonFile f.1 && isJsonFile f.1)
        = (fun f => isJsonFile f.1) := funext (fun f => Bool.and_self _)
    rw [hpred]
